import Mathlib

/-!
Verification of the Path Visibility Resolution Engine of this repository
(the `PathVisibilityChecker` exercised by
`lsif/src/worker/conversion/visibility.test.ts`).

Paths are modelled as lists of segments (the empty list is the repository
root).  The external `DirectoryChildLister` is modelled as a function from
a directory to a `ListerResult`; the per-job `DirectoryChildCache` and the
log of underlying lister invocations are carried in an explicit
`CheckerState` that every operation threads through.
-/

namespace Visibility

/-- Result of one underlying `DirectoryChildLister` call for a directory:
a set (list) of immediate child names, a "directory does not exist"
answer, or a transport failure. -/
inductive ListerResult where
  | ok (children : List String)
  | notFound
  | fail
deriving DecidableEq

/-- A `DirectoryChildLister`: maps a repository-root-relative directory
(as a segment list) to the outcome of listing its immediate children at
the checker's fixed repository and commit. -/
abbrev Lister := List String → ListerResult

/-- Modelled from the spec: the mutable state owned by one
`PathVisibilityChecker` instance — the `DirectoryChildCache` entry table
(directory path to child-name set) plus, for stating the efficiency
invariants, the log of directories for which the underlying lister has
actually been invoked, in invocation order. -/
structure CheckerState where
  cache : List (List String × List String)
  callLog : List (List String)
deriving DecidableEq

/-- The state of a freshly constructed checker: empty cache, no lister
calls made yet. -/
def initState : CheckerState := ⟨[], []⟩

/-- Look a directory up in the cache entry table. -/
def findCached (dir : List String) : List (List String × List String) → Option (List String)
  | [] => none
  | (d, cs) :: rest => if d = dir then some cs else findCached dir rest

/-- Modelled from the spec: `DirectoryChildCache.childrenOf`.  A cache hit
issues no lister call; a miss invokes the lister exactly once: a
successful listing is stored permanently, a "directory does not exist"
answer is treated as (and cached as) an empty child set, and a transport
failure is surfaced as `none` and not cached. -/
def childrenOf (lister : Lister) (dir : List String) (st : CheckerState) :
    Option (List String) × CheckerState :=
  match findCached dir st.cache with
  | some cs => (some cs, st)
  | none =>
    match lister dir with
    | .ok cs => (some cs, ⟨(dir, cs) :: st.cache, st.callLog ++ [dir]⟩)
    | .notFound => (some [], ⟨(dir, []) :: st.cache, st.callLog ++ [dir]⟩)
    | .fail => (none, ⟨st.cache, st.callLog ++ [dir]⟩)

/-- Modelled from the spec: `PathResolver` normalization.  Processes the
segments left to right over a reversed stack of kept segments; `.` and
empty segments are dropped, `..` pops, and popping an empty stack means
the path ascends past the repository root (`none`). -/
def normalizeAux : List String → List String → Option (List String)
  | stack, [] => some stack.reverse
  | stack, seg :: rest =>
    if seg = "." ∨ seg = "" then normalizeAux stack rest
    else if seg = ".." then
      match stack with
      | [] => none
      | _ :: tail => normalizeAux tail rest
    else normalizeAux (seg :: stack) rest

/-- Segment-wise test that `root` is a leading directory chain of a path. -/
def startsWith : List String → List String → Bool
  | [], _ => true
  | _ :: _, [] => false
  | a :: as, b :: bs => if a = b then startsWith as bs else false

/-- Modelled from the spec: the result of `PathResolver.resolve` — the
normalized repository-root-relative path together with the two boundary
flags callers treat differently. -/
structure ResolvedPath where
  relativeToRepoRoot : List String
  escapesRoot : Bool
  escapesRepo : Bool
deriving DecidableEq

/-- Modelled from the spec: `PathResolver.resolve` lexically joins the
project root and the candidate path, normalizes, and reports whether the
result escapes the project root and/or the repository. -/
def resolve (candidatePath root : List String) : ResolvedPath :=
  match normalizeAux [] (root ++ candidatePath) with
  | none => { relativeToRepoRoot := [], escapesRoot := true, escapesRepo := true }
  | some p => { relativeToRepoRoot := p, escapesRoot := !(startsWith root p), escapesRepo := false }

/-- Modelled from the spec and the tests: the ancestor walk of
`shouldIncludePath`.  Starting from the repository root it queries each
ancestor directory of the resolved path top-down through the cache; an
ancestor whose child listing is empty excludes the whole subtree (the
tests pin this down: the walk lists the untracked directory itself and
never anything deeper, and a directory need not be listed in its parent
for its contents to be reachable); at the leaf it answers membership of
the leaf name in its parent directory's listing.  A lister failure aborts
the walk with `none`. -/
def walkAncestors (lister : Lister) : List String → List String → CheckerState →
    Option Bool × CheckerState
  | _, [], st => (some false, st)
  | dir, seg :: rest, st =>
    match childrenOf lister dir st, rest with
    | (none, st₂), _ => (none, st₂)
    | (some cs, st₂), [] => (some (decide (seg ∈ cs)), st₂)
    | (some cs, st₂), _ :: _ =>
      if cs.isEmpty then (some false, st₂)
      else walkAncestors lister (dir ++ [seg]) rest st₂

/-- Modelled from the spec: `PathVisibilityChecker.shouldIncludePath`.
Resolve the candidate path against the instance's project root; a path
escaping the repository is excluded outright, a path escaping the project
root is excluded when `restrictToProjectRoot` is set, and otherwise the
ancestor walk decides inclusion against the git tree. -/
def shouldIncludePath (lister : Lister) (root candidatePath : List String)
    (restrictToProjectRoot : Bool) (st : CheckerState) : Option Bool × CheckerState :=
  let r := resolve candidatePath root
  if r.escapesRepo then (some false, st)
  else if r.escapesRoot && restrictToProjectRoot then (some false, st)
  else walkAncestors lister [] r.relativeToRepoRoot st

/-- The child-set value a lister call denotes, with the engine's reading:
a "directory does not exist" answer denotes the empty child set, a
transport failure denotes no value. -/
def listerVal (lister : Lister) (dir : List String) : Option (List String) :=
  match lister dir with
  | .ok cs => some cs
  | .notFound => some []
  | .fail => none

/-- The child set a never-failing lister denotes for a directory. -/
def effChildren (lister : Lister) (dir : List String) : List String :=
  (listerVal lister dir).getD []

/-- A lister built from a pure simulated tree: always succeeds. -/
def okLister (f : List String → List String) : Lister := fun d => .ok (f d)

/-- Follows the spec's words (claim C1): a path is tracked in the tree
when every ancestor directory is listed as a child of its parent and the
leaf name is a child of its parent directory. -/
def trackedInTree (f : List String → List String) : List String → List String → Bool
  | _, [] => false
  | dir, seg :: rest =>
    match rest with
    | [] => decide (seg ∈ f dir)
    | _ :: _ => decide (seg ∈ f dir) && trackedInTree f (dir ++ [seg]) rest

/-- The pure inclusion predicate the walk actually computes on a
simulated tree: every ancestor directory of the path has a nonempty
child listing and the leaf name is a child of its parent directory. -/
def includedInTree (f : List String → List String) : List String → List String → Bool
  | _, [] => false
  | dir, seg :: rest =>
    match rest with
    | [] => decide (seg ∈ f dir)
    | _ :: _ => !(f dir).isEmpty && includedInTree f (dir ++ [seg]) rest

/-- Number of times a directory occurs in a call log. -/
def countDir (d : List String) : List (List String) → Nat
  | [] => 0
  | x :: xs => (if x = d then 1 else 0) + countDir d xs

/-- Process a batch of `shouldIncludePath` requests sequentially on one
checker instance, collecting the results and the final state. -/
def processAll (lister : Lister) (root : List String) :
    List (List String × Bool) → CheckerState → List (Option Bool) × CheckerState
  | [], st => ([], st)
  | (p, b) :: rs, st =>
    let step := shouldIncludePath lister root p b st
    let restRun := processAll lister root rs step.2
    (step.1 :: restRun.1, restRun.2)

/-- The fixture tree of the test `should test path existence in git tree`:
root listing `web`, `shared`; `web` contains `foo.ts`; `web/shared`
contains `bonk.ts`; `shared` contains `bar.ts`, `baz.ts`; every other
directory is empty (the mock returns an empty set for unknown keys). -/
def tree1 : List String → List String := fun d =>
  if d = [] then ["web", "shared"]
  else if d = ["web"] then ["foo.ts"]
  else if d = ["web", "shared"] then ["bonk.ts"]
  else if d = ["shared"] then ["bar.ts", "baz.ts"]
  else []

/-- The fixture tree of the test `should early out on untracked
ancestors`: the root lists only `not_node_modules`; everything else is
empty. -/
def earlyTree : List String → List String := fun d =>
  if d = [] then ["not_node_modules"] else []

/-- The fixture tree of the test `should cache directory contents`
(scaled down): files directly under the repository root, nothing else. -/
def cacheTree : List String → List String := fun d =>
  if d = [] then ["0.ts", "1.ts"] else []

/-- A lister whose call for directory `a` fails while the repository root
lists `a`: exercises the failure-propagation path. -/
def failLister : Lister := fun e =>
  if e = [] then .ok ["a"]
  else if e = ["a"] then .fail
  else .ok []

/-- A lister answering "directory does not exist" for `nm`. -/
def nfLister : Lister := fun e =>
  if e = ["nm"] then .notFound else .ok ["nm"]

/-- A lister answering an empty child set for `nm`, agreeing with
`nfLister` everywhere else. -/
def emLister : Lister := fun e =>
  if e = ["nm"] then .ok [] else .ok ["nm"]

/-- Cache coherence: every cached entry agrees with the value the lister
denotes for that directory (in particular, only directories whose lister
call succeeds are ever cached). -/
def Coh (lister : Lister) (st : CheckerState) : Prop :=
  ∀ d cs, findCached d st.cache = some cs → listerVal lister d = some cs

/-- The memoization invariant: a directory whose lister call succeeds has
been fetched at most once, and if it has been fetched it is cached. -/
def InvM (lister : Lister) (st : CheckerState) : Prop :=
  ∀ e, lister e ≠ .fail →
    countDir e st.callLog = 0 ∨
      (countDir e st.callLog = 1 ∧ (findCached e st.cache).isSome = true)

/-! ### Equation lemmas for the recursive definitions -/

theorem walk_nil (L : Lister) (dir : List String) (st : CheckerState) :
    walkAncestors L dir [] st = (some false, st) := rfl

theorem walk_step_none {L : Lister} {dir : List String} {st st₂ : CheckerState}
    (hc : childrenOf L dir st = (none, st₂)) (seg : String) (rest : List String) :
    walkAncestors L dir (seg :: rest) st = (none, st₂) := by
  cases rest <;> (unfold walkAncestors; rw [hc])

theorem walk_step_leaf {L : Lister} {dir : List String} {st st₂ : CheckerState}
    {cs : List String} (hc : childrenOf L dir st = (some cs, st₂)) (seg : String) :
    walkAncestors L dir [seg] st = (some (decide (seg ∈ cs)), st₂) := by
  unfold walkAncestors; rw [hc]

theorem walk_step_cons {L : Lister} {dir : List String} {st st₂ : CheckerState}
    {cs : List String} (hc : childrenOf L dir st = (some cs, st₂)) (seg y : String)
    (ys : List String) :
    walkAncestors L dir (seg :: y :: ys) st =
      if cs.isEmpty then (some false, st₂)
      else walkAncestors L (dir ++ [seg]) (y :: ys) st₂ := by
  unfold walkAncestors; rw [hc]; rfl

theorem includedInTree_nil (f : List String → List String) (dir : List String) :
    includedInTree f dir [] = false := rfl

theorem includedInTree_leaf (f : List String → List String) (dir : List String) (seg : String) :
    includedInTree f dir [seg] = decide (seg ∈ f dir) := rfl

theorem includedInTree_cons (f : List String → List String) (dir : List String)
    (seg y : String) (ys : List String) :
    includedInTree f dir (seg :: y :: ys) =
      (!(f dir).isEmpty && includedInTree f (dir ++ [seg]) (y :: ys)) := rfl

theorem trackedInTree_leaf (f : List String → List String) (dir : List String) (seg : String) :
    trackedInTree f dir [seg] = decide (seg ∈ f dir) := rfl

theorem trackedInTree_cons (f : List String → List String) (dir : List String)
    (seg y : String) (ys : List String) :
    trackedInTree f dir (seg :: y :: ys) =
      (decide (seg ∈ f dir) && trackedInTree f (dir ++ [seg]) (y :: ys)) := rfl

theorem countDir_nil (d : List String) : countDir d [] = 0 := rfl

theorem countDir_cons (d x : List String) (xs : List (List String)) :
    countDir d (x :: xs) = (if x = d then 1 else 0) + countDir d xs := rfl

theorem countDir_append (d : List String) (l₁ l₂ : List (List String)) :
    countDir d (l₁ ++ l₂) = countDir d l₁ + countDir d l₂ := by
  induction l₁ with
  | nil => simp [countDir]
  | cons x xs ih => simp only [List.cons_append, countDir_cons, ih]; omega

theorem countDir_single_ne {d e : List String} (h : e ≠ d) : countDir d [e] = 0 := by
  simp [countDir, h]

theorem countDir_single_eq (d : List String) : countDir d [d] = 1 := by
  simp [countDir]

/-! ### Basic lemmas about the cache layer -/

theorem listerVal_ne_fail {L : Lister} {d : List String} (h : L d ≠ .fail) :
    listerVal L d = some (effChildren L d) := by
  unfold effChildren listerVal
  cases hd : L d with
  | ok cs => rfl
  | notFound => rfl
  | fail => exact absurd hd h

theorem childrenOf_hit {L : Lister} {d : List String} {st : CheckerState} {cs : List String}
    (h : findCached d st.cache = some cs) : childrenOf L d st = (some cs, st) := by
  unfold childrenOf
  rw [h]

theorem childrenOf_miss_val {L : Lister} {d : List String} {st : CheckerState} {cs : List String}
    (hmiss : findCached d st.cache = none) (hval : listerVal L d = some cs) :
    childrenOf L d st = (some cs, ⟨(d, cs) :: st.cache, st.callLog ++ [d]⟩) := by
  unfold childrenOf
  rw [hmiss]
  unfold listerVal at hval
  cases hd : L d with
  | ok cs' => rw [hd] at hval; cases hval; rfl
  | notFound => rw [hd] at hval; cases hval; rfl
  | fail => rw [hd] at hval; cases hval

theorem childrenOf_miss_fail {L : Lister} {d : List String} {st : CheckerState}
    (hmiss : findCached d st.cache = none) (hval : L d = .fail) :
    childrenOf L d st = (none, ⟨st.cache, st.callLog ++ [d]⟩) := by
  unfold childrenOf
  rw [hmiss, hval]

theorem fail_of_listerVal_none {L : Lister} {d : List String}
    (hv : listerVal L d = none) : L d = .fail := by
  unfold listerVal at hv
  cases hd : L d <;> rw [hd] at hv <;> first | rfl | cases hv

theorem childrenOf_fst {L : Lister} {d : List String} {st : CheckerState}
    (hcoh : Coh L st) : (childrenOf L d st).1 = listerVal L d := by
  cases hm : findCached d st.cache with
  | some cs => rw [childrenOf_hit hm, hcoh d cs hm]
  | none =>
    cases hv : listerVal L d with
    | some cs => rw [childrenOf_miss_val hm hv]
    | none => rw [childrenOf_miss_fail hm (fail_of_listerVal_none hv)]

theorem coh_init (L : Lister) : Coh L initState := by
  intro d cs h
  cases h

theorem coh_childrenOf {L : Lister} {st : CheckerState} (hcoh : Coh L st) (d : List String) :
    Coh L (childrenOf L d st).2 := by
  cases hm : findCached d st.cache with
  | some cs => rw [childrenOf_hit hm]; exact hcoh
  | none =>
    cases hv : listerVal L d with
    | some cs =>
      rw [childrenOf_miss_val hm hv]
      intro e cs' he
      unfold findCached at he
      by_cases hed : d = e
      · subst hed
        simp only [if_pos rfl] at he
        cases he
        exact hv
      · simp only [if_neg hed] at he
        exact hcoh e cs' he
    | none =>
      rw [childrenOf_miss_fail hm (fail_of_listerVal_none hv)]
      intro e cs' he
      exact hcoh e cs' he

theorem childrenOf_log (L : Lister) (d : List String) (st : CheckerState) :
    (childrenOf L d st).2.callLog = st.callLog ∨
      (childrenOf L d st).2.callLog = st.callLog ++ [d] := by
  unfold childrenOf
  cases findCached d st.cache with
  | some cs => exact Or.inl rfl
  | none => cases L d <;> exact Or.inr rfl

/-! ### The walk computes the pure inclusion predicate -/

theorem walk_fst {L : Lister} (hL : ∀ e, L e ≠ .fail) :
    ∀ (p dir : List String) (st : CheckerState), Coh L st →
      (walkAncestors L dir p st).1 = some (includedInTree (effChildren L) dir p) := by
  intro p
  induction p with
  | nil => intro dir st _; rfl
  | cons seg rest ih =>
    intro dir st hcoh
    have hfst : (childrenOf L dir st).1 = some (effChildren L dir) := by
      rw [childrenOf_fst hcoh, listerVal_ne_fail (hL dir)]
    have hcoh₂ : Coh L (childrenOf L dir st).2 := coh_childrenOf hcoh dir
    rcases hc : childrenOf L dir st with ⟨o, st₂⟩
    rw [hc] at hfst hcoh₂
    simp only at hfst
    subst hfst
    cases rest with
    | nil => rw [walk_step_leaf hc, includedInTree_leaf]
    | cons y ys =>
      rw [walk_step_cons hc, includedInTree_cons]
      cases he : (effChildren L dir).isEmpty with
      | true => rw [if_pos rfl]; rfl
      | false =>
        rw [if_neg (by simp)]
        simp only [Bool.not_false, Bool.true_and]
        exact ih (dir ++ [seg]) st₂ hcoh₂

theorem coh_walk {L : Lister} :
    ∀ (p dir : List String) (st : CheckerState), Coh L st →
      Coh L (walkAncestors L dir p st).2 := by
  intro p
  induction p with
  | nil => intro dir st h; exact h
  | cons seg rest ih =>
    intro dir st hcoh
    have hcoh₂ : Coh L (childrenOf L dir st).2 := coh_childrenOf hcoh dir
    rcases hc : childrenOf L dir st with ⟨o, st₂⟩
    rw [hc] at hcoh₂
    cases o with
    | none => rw [walk_step_none hc]; exact hcoh₂
    | some cs =>
      cases rest with
      | nil => rw [walk_step_leaf hc]; exact hcoh₂
      | cons y ys =>
        rw [walk_step_cons hc]
        by_cases he : cs.isEmpty = true
        · rw [if_pos he]; exact hcoh₂
        · rw [if_neg he]; exact ih (dir ++ [seg]) st₂ hcoh₂

/-! ### Relating the two pure tree predicates -/

theorem tracked_imp_included (f : List String → List String) :
    ∀ (p dir : List String), trackedInTree f dir p = true → includedInTree f dir p = true := by
  intro p
  induction p with
  | nil => intro dir h; exact h
  | cons seg rest ih =>
    intro dir h
    cases rest with
    | nil => exact h
    | cons y ys =>
      rw [trackedInTree_cons, Bool.and_eq_true] at h
      obtain ⟨h1, h2⟩ := h
      have hmem : seg ∈ f dir := of_decide_eq_true h1
      have hne : (f dir).isEmpty = false := by
        cases hfd : f dir with
        | nil => rw [hfd] at hmem; cases hmem
        | cons a as => rfl
      rw [includedInTree_cons, hne]
      simpa using ih (dir ++ [seg]) h2

theorem included_under_empty (f : List String → List String) :
    ∀ (dd rest dir : List String), rest ≠ [] → f (dir ++ dd) = [] →
      includedInTree f dir (dd ++ rest) = false := by
  intro dd
  induction dd with
  | nil =>
    intro rest dir hrest hf
    simp only [List.append_nil] at hf
    cases rest with
    | nil => exact absurd rfl hrest
    | cons seg rest' =>
      cases rest' with
      | nil => rw [List.nil_append, includedInTree_leaf, hf]; simp
      | cons y ys => rw [List.nil_append, includedInTree_cons, hf]; rfl
  | cons s dd' ih =>
    intro rest dir hrest hf
    have hf' : f ((dir ++ [s]) ++ dd') = [] := by simpa using hf
    have hrec := ih rest (dir ++ [s]) hrest hf'
    have hshape : (s :: dd') ++ rest = s :: (dd' ++ rest) := rfl
    rw [hshape]
    cases hdd : dd' ++ rest with
    | nil =>
      exfalso
      rcases List.append_eq_nil.mp hdd with ⟨_, h2⟩
      exact hrest h2
    | cons y ys =>
      rw [hdd] at hrec
      rw [includedInTree_cons]
      cases he : (f dir).isEmpty with
      | true => rfl
      | false => simpa using hrec

theorem included_leaf_absent (f : List String → List String) :
    ∀ (pre dir : List String) (leaf : String), leaf ∉ f (dir ++ pre) →
      includedInTree f dir (pre ++ [leaf]) = false := by
  intro pre
  induction pre with
  | nil =>
    intro dir leaf hmem
    simp only [List.append_nil] at hmem
    rw [List.nil_append, includedInTree_leaf]
    simpa using hmem
  | cons s pre' ih =>
    intro dir leaf hmem
    have hrec := ih (dir ++ [s]) leaf (by simpa using hmem)
    have hshape : (s :: pre') ++ [leaf] = s :: (pre' ++ [leaf]) := rfl
    rw [hshape]
    cases hp : pre' ++ [leaf] with
    | nil => simp at hp
    | cons y ys =>
      rw [hp] at hrec
      rw [includedInTree_cons]
      cases he : (f dir).isEmpty with
      | true => rfl
      | false => simpa using hrec

/-! ### The memoization invariant is preserved by every operation -/

theorem findCached_isSome_cons {e d : List String} {cs : List String}
    {c : List (List String × List String)} (h : (findCached e c).isSome = true) :
    (findCached e ((d, cs) :: c)).isSome = true := by
  unfold findCached
  by_cases hde : d = e
  · simp [hde]
  · simpa [hde] using h

theorem invM_init (L : Lister) : InvM L initState := by
  intro e _
  exact Or.inl rfl

theorem invM_childrenOf {L : Lister} {st : CheckerState} (h : InvM L st) (d : List String) :
    InvM L (childrenOf L d st).2 := by
  cases hm : findCached d st.cache with
  | some cs => rw [childrenOf_hit hm]; exact h
  | none =>
    cases hv : listerVal L d with
    | some cs =>
      rw [childrenOf_miss_val hm hv]
      intro e he
      by_cases hed : e = d
      · subst hed
        have h0 : countDir e st.callLog = 0 := by
          rcases h e he with h1 | ⟨_, h2⟩
          · exact h1
          · rw [hm] at h2; cases h2
        refine Or.inr ⟨?_, ?_⟩
        · simp only [countDir_append, h0, countDir_single_eq]
        · unfold findCached
          simp
      · have hcount : countDir e (st.callLog ++ [d]) = countDir e st.callLog := by
          rw [countDir_append, countDir_single_ne (fun hc => hed hc.symm)]
          omega
        rcases h e he with h1 | ⟨h2, h3⟩
        · exact Or.inl (by rw [hcount]; exact h1)
        · exact Or.inr ⟨by rw [hcount]; exact h2, findCached_isSome_cons h3⟩
    | none =>
      have hfail := fail_of_listerVal_none hv
      rw [childrenOf_miss_fail hm hfail]
      intro e he
      have hed : e ≠ d := fun hc => he (hc ▸ hfail)
      have hcount : countDir e (st.callLog ++ [d]) = countDir e st.callLog := by
        rw [countDir_append, countDir_single_ne (fun hc => hed hc.symm)]
        omega
      rcases h e he with h1 | ⟨h2, h3⟩
      · exact Or.inl (by rw [hcount]; exact h1)
      · exact Or.inr ⟨by rw [hcount]; exact h2, h3⟩

theorem invM_walk {L : Lister} :
    ∀ (p dir : List String) (st : CheckerState), InvM L st →
      InvM L (walkAncestors L dir p st).2 := by
  intro p
  induction p with
  | nil => intro dir st h; exact h
  | cons seg rest ih =>
    intro dir st h
    have h₂ : InvM L (childrenOf L dir st).2 := invM_childrenOf h dir
    rcases hc : childrenOf L dir st with ⟨o, st₂⟩
    rw [hc] at h₂
    cases o with
    | none => rw [walk_step_none hc]; exact h₂
    | some cs =>
      cases rest with
      | nil => rw [walk_step_leaf hc]; exact h₂
      | cons y ys =>
        rw [walk_step_cons hc]
        by_cases he : cs.isEmpty = true
        · rw [if_pos he]; exact h₂
        · rw [if_neg he]; exact ih (dir ++ [seg]) st₂ h₂

/-! ### Reducing `shouldIncludePath` by the resolution outcome -/

theorem shouldInclude_escRepo {root path : List String}
    (h : (resolve path root).escapesRepo = true) (L : Lister) (b : Bool) (st : CheckerState) :
    shouldIncludePath L root path b st = (some false, st) := by
  simp [shouldIncludePath, h]

theorem shouldInclude_restricted {root path : List String}
    (h1 : (resolve path root).escapesRepo = false)
    (h2 : (resolve path root).escapesRoot = true) (L : Lister) (st : CheckerState) :
    shouldIncludePath L root path true st = (some false, st) := by
  simp [shouldIncludePath, h1, h2]

theorem shouldInclude_walk {root path : List String} {b : Bool}
    (h1 : (resolve path root).escapesRepo = false)
    (h2 : ((resolve path root).escapesRoot && b) = false) (L : Lister) (st : CheckerState) :
    shouldIncludePath L root path b st =
      walkAncestors L [] (resolve path root).relativeToRepoRoot st := by
  simp [shouldIncludePath, h1, h2]

theorem shouldInclude_flag {root path : List String} {b : Bool}
    (h1 : (resolve path root).escapesRepo = false)
    (h2 : ((resolve path root).escapesRoot && b) = true) (L : Lister) (st : CheckerState) :
    shouldIncludePath L root path b st = (some false, st) := by
  simp [shouldIncludePath, h1, h2]

theorem coh_shouldInclude {L : Lister} {st : CheckerState} (h : Coh L st)
    (root path : List String) (b : Bool) : Coh L (shouldIncludePath L root path b st).2 := by
  cases hrepo : (resolve path root).escapesRepo with
  | true => rw [shouldInclude_escRepo hrepo]; exact h
  | false =>
    cases hflag : (resolve path root).escapesRoot && b with
    | true => rw [shouldInclude_flag hrepo hflag]; exact h
    | false => rw [shouldInclude_walk hrepo hflag]; exact coh_walk _ _ _ h

theorem invM_shouldInclude {L : Lister} {st : CheckerState} (h : InvM L st)
    (root path : List String) (b : Bool) : InvM L (shouldIncludePath L root path b st).2 := by
  cases hrepo : (resolve path root).escapesRepo with
  | true => rw [shouldInclude_escRepo hrepo]; exact h
  | false =>
    cases hflag : (resolve path root).escapesRoot && b with
    | true => rw [shouldInclude_flag hrepo hflag]; exact h
    | false => rw [shouldInclude_walk hrepo hflag]; exact invM_walk _ _ _ h

theorem coh_processAll {L : Lister} {root : List String} :
    ∀ (reqs : List (List String × Bool)) (st : CheckerState), Coh L st →
      Coh L (processAll L root reqs st).2 := by
  intro reqs
  induction reqs with
  | nil => intro st h; exact h
  | cons r rs ih =>
    intro st h
    rcases r with ⟨p, b⟩
    exact ih _ (coh_shouldInclude h root p b)

theorem invM_processAll {L : Lister} {root : List String} :
    ∀ (reqs : List (List String × Bool)) (st : CheckerState), InvM L st →
      InvM L (processAll L root reqs st).2 := by
  intro reqs
  induction reqs with
  | nil => intro st h; exact h
  | cons r rs ih =>
    intro st h
    rcases r with ⟨p, b⟩
    exact ih _ (invM_shouldInclude h root p b)

theorem invM_count_le {L : Lister} {st : CheckerState} (h : InvM L st) {d : List String}
    (hd : L d ≠ .fail) : countDir d st.callLog ≤ 1 := by
  rcases h d hd with h1 | ⟨h2, _⟩
  · omega
  · omega

/-! ### Plain paths resolve to themselves -/

theorem normalize_plain :
    ∀ (p acc : List String), (∀ s ∈ p, s ≠ "." ∧ s ≠ ".." ∧ s ≠ "") →
      normalizeAux acc p = some (acc.reverse ++ p) := by
  intro p
  induction p with
  | nil => intro acc _; simp [normalizeAux]
  | cons s t ih =>
    intro acc hplain
    obtain ⟨h1, h2, h3⟩ := hplain s (List.mem_cons_self s t)
    unfold normalizeAux
    rw [if_neg (by rintro (hc | hc) <;> [exact h1 hc; exact h3 hc])]
    rw [if_neg h2]
    rw [ih (s :: acc) (fun x hx => hplain x (List.mem_cons_of_mem s hx))]
    simp

theorem resolve_plain {p : List String}
    (hplain : ∀ s ∈ p, s ≠ "." ∧ s ≠ ".." ∧ s ≠ "") :
    resolve p [] = ⟨p, false, false⟩ := by
  unfold resolve
  rw [List.nil_append, normalize_plain p [] hplain]
  rfl

theorem shouldInclude_plain {p : List String}
    (hplain : ∀ s ∈ p, s ≠ "." ∧ s ≠ ".." ∧ s ≠ "") (L : Lister) (b : Bool)
    (st : CheckerState) :
    shouldIncludePath L [] p b st = walkAncestors L [] p st := by
  simp [shouldIncludePath, resolve_plain hplain]

/-! ### The walk under an untracked top-level directory -/

theorem walk_topEmpty {L : Lister} (hL : ∀ e, L e ≠ .fail) {u : String}
    (hu : listerVal L [u] = some []) (x : String) (xs : List String) (st : CheckerState)
    (hcoh : Coh L st) :
    (walkAncestors L [] (u :: x :: xs) st).1 = some false ∧
    ∀ e ∈ (walkAncestors L [] (u :: x :: xs) st).2.callLog,
      e ∈ st.callLog ∨ e = [] ∨ e = ([u] : List String) := by
  have hfst : (childrenOf L [] st).1 = some (effChildren L []) := by
    rw [childrenOf_fst hcoh, listerVal_ne_fail (hL [])]
  have hcoh₁ : Coh L (childrenOf L [] st).2 := coh_childrenOf hcoh []
  have hlog₁ := childrenOf_log L [] st
  rcases hc : childrenOf L [] st with ⟨o, st₁⟩
  rw [hc] at hfst hcoh₁ hlog₁
  simp only at hfst
  subst hfst
  rw [walk_step_cons hc]
  have hlog₁' : ∀ e ∈ st₁.callLog, e ∈ st.callLog ∨ e = [] ∨ e = ([u] : List String) := by
    intro e he
    rcases hlog₁ with h | h
    · exact Or.inl (h ▸ he)
    · rw [h] at he
      rcases List.mem_append.mp he with h' | h'
      · exact Or.inl h'
      · exact Or.inr (Or.inl (by simpa using h'))
  by_cases hemp : (effChildren L []).isEmpty = true
  · rw [if_pos hemp]
    exact ⟨rfl, hlog₁'⟩
  · rw [if_neg hemp]
    simp only [List.nil_append]
    have hfst₂ : (childrenOf L [u] st₁).1 = some [] := by
      rw [childrenOf_fst hcoh₁, hu]
    have hcoh₂ : Coh L (childrenOf L [u] st₁).2 := coh_childrenOf hcoh₁ [u]
    have hlog₂ := childrenOf_log L [u] st₁
    rcases hc₂ : childrenOf L [u] st₁ with ⟨o₂, st₂⟩
    rw [hc₂] at hfst₂ hcoh₂ hlog₂
    simp only at hfst₂
    subst hfst₂
    have hlog₂' : ∀ e ∈ st₂.callLog, e ∈ st.callLog ∨ e = [] ∨ e = ([u] : List String) := by
      intro e he
      rcases hlog₂ with h | h
      · exact hlog₁' e (h ▸ he)
      · rw [h] at he
        rcases List.mem_append.mp he with h' | h'
        · exact hlog₁' e h'
        · exact Or.inr (Or.inr (by simpa using h'))
    cases xs with
    | nil => rw [walk_step_leaf hc₂]; exact ⟨by simp, hlog₂'⟩
    | cons y ys => rw [walk_step_cons hc₂]; exact ⟨rfl, hlog₂'⟩

theorem processAll_topEmpty {L : Lister} (hL : ∀ e, L e ≠ .fail) {u : String}
    (hu : listerVal L [u] = some []) :
    ∀ (reqs : List (List String × Bool)) (st : CheckerState), Coh L st →
      (∀ e ∈ st.callLog, e = [] ∨ e = ([u] : List String)) →
      (∀ r ∈ reqs, ∃ x xs, r.1 = u :: x :: xs ∧
        (∀ s ∈ r.1, s ≠ "." ∧ s ≠ ".." ∧ s ≠ "")) →
      (∀ res ∈ (processAll L [] reqs st).1, res = some false) ∧
      (∀ e ∈ (processAll L [] reqs st).2.callLog, e = [] ∨ e = ([u] : List String)) := by
  intro reqs
  induction reqs with
  | nil =>
    intro st _ hlog _
    exact ⟨fun res h => absurd h (List.not_mem_nil res), hlog⟩
  | cons r rs ih =>
    intro st hcoh hlog hshape
    obtain ⟨x, xs, hr, hplain⟩ := hshape r (List.mem_cons_self r rs)
    rcases r with ⟨p, b⟩
    simp only at hr
    subst hr
    have hstep : shouldIncludePath L [] (u :: x :: xs) b st =
        walkAncestors L [] (u :: x :: xs) st := shouldInclude_plain hplain L b st
    obtain ⟨hres, hlog'⟩ := walk_topEmpty hL hu x xs st hcoh
    have hcoh' : Coh L (walkAncestors L [] (u :: x :: xs) st).2 := coh_walk _ _ _ hcoh
    have hlog'' : ∀ e ∈ (walkAncestors L [] (u :: x :: xs) st).2.callLog,
        e = [] ∨ e = ([u] : List String) := by
      intro e he
      rcases hlog' e he with h | h
      · exact hlog e h
      · exact h
    obtain ⟨ihres, ihlog⟩ := ih (walkAncestors L [] (u :: x :: xs) st).2 hcoh' hlog''
      (fun r hr => hshape r (List.mem_cons_of_mem _ hr))
    show (∀ res ∈ (processAll L [] ((u :: x :: xs, b) :: rs) st).1, res = some false) ∧ _
    refine ⟨?_, ?_⟩
    · intro res hres'
      simp only [processAll, hstep] at hres'
      rcases List.mem_cons.mp hres' with h | h
      · rw [h, hres]
      · exact ihres res h
    · intro e he
      simp only [processAll, hstep] at he
      exact ihlog e he

/-! ### Exact two-call computation for a fresh checker -/

theorem walk_from_init {L : Lister} {cs₀ : List String} {u : String}
    (hv0 : listerVal L [] = some cs₀) (hne : cs₀ ≠ [])
    (hv1 : listerVal L [u] = some []) (x : String) (xs : List String) :
    walkAncestors L [] (u :: x :: xs) initState =
      (some false, ⟨[([u], []), ([], cs₀)], [[], [u]]⟩) := by
  have hc : childrenOf L [] initState = (some cs₀, ⟨[([], cs₀)], [[]]⟩) := by
    have := @childrenOf_miss_val L [] initState cs₀ rfl hv0
    simpa [initState] using this
  rw [walk_step_cons hc]
  have hemp : cs₀.isEmpty = false := by
    cases cs₀ with
    | nil => exact absurd rfl hne
    | cons a as => rfl
  rw [hemp]
  simp only [List.nil_append, Bool.false_eq_true, if_false]
  have hmiss : findCached [u] (⟨[([], cs₀)], [[]]⟩ : CheckerState).cache = none := by
    simp [findCached]
  have hc₂ : childrenOf L [u] ⟨[([], cs₀)], [[]]⟩ =
      (some [], ⟨[([u], []), ([], cs₀)], [[], [u]]⟩) := by
    have := @childrenOf_miss_val L [u] ⟨[([], cs₀)], [[]]⟩ [] hmiss hv1
    simpa using this
  cases xs with
  | nil => rw [walk_step_leaf hc₂]; simp
  | cons y ys => rw [walk_step_cons hc₂]; rfl

theorem walk_from_sat {L : Lister} {cs₀ : List String} {u : String} (hne : cs₀ ≠ [])
    (x : String) (xs : List String) :
    walkAncestors L [] (u :: x :: xs) ⟨[([u], []), ([], cs₀)], [[], [u]]⟩ =
      (some false, ⟨[([u], []), ([], cs₀)], [[], [u]]⟩) := by
  have hhit : findCached [] (⟨[([u], []), ([], cs₀)], [[], [u]]⟩ : CheckerState).cache
      = some cs₀ := by
    simp [findCached]
  have hc : childrenOf L [] ⟨[([u], []), ([], cs₀)], [[], [u]]⟩ =
      (some cs₀, ⟨[([u], []), ([], cs₀)], [[], [u]]⟩) := childrenOf_hit hhit
  rw [walk_step_cons hc]
  have hemp : cs₀.isEmpty = false := by
    cases cs₀ with
    | nil => exact absurd rfl hne
    | cons a as => rfl
  rw [hemp]
  simp only [List.nil_append, Bool.false_eq_true, if_false]
  have hhit₂ : findCached [u] (⟨[([u], []), ([], cs₀)], [[], [u]]⟩ : CheckerState).cache
      = some [] := by
    simp [findCached]
  have hc₂ : childrenOf L [u] ⟨[([u], []), ([], cs₀)], [[], [u]]⟩ =
      (some [], ⟨[([u], []), ([], cs₀)], [[], [u]]⟩) := childrenOf_hit hhit₂
  cases xs with
  | nil => rw [walk_step_leaf hc₂]; simp
  | cons y ys => rw [walk_step_cons hc₂]; rfl

theorem processAll_sat (L : Lister) {cs₀ : List String} {u : String} (hne : cs₀ ≠ []) :
    ∀ (reqs : List (List String × Bool)),
      (∀ r ∈ reqs, ∃ x xs, r.1 = u :: x :: xs ∧
        (∀ s ∈ r.1, s ≠ "." ∧ s ≠ ".." ∧ s ≠ "")) →
      processAll L [] reqs ⟨[([u], []), ([], cs₀)], [[], [u]]⟩ =
        (reqs.map (fun _ => some false), ⟨[([u], []), ([], cs₀)], [[], [u]]⟩) := by
  intro reqs
  induction reqs with
  | nil => intro _; rfl
  | cons r rs ih =>
    intro hshape
    obtain ⟨x, xs, hr, hplain⟩ := hshape r (List.mem_cons_self r rs)
    rcases r with ⟨p, b⟩
    simp only at hr
    subst hr
    have hstep : shouldIncludePath L [] (u :: x :: xs) b ⟨[([u], []), ([], cs₀)], [[], [u]]⟩ =
        (some false, ⟨[([u], []), ([], cs₀)], [[], [u]]⟩) := by
      rw [shouldInclude_plain hplain, walk_from_sat hne]
    simp only [processAll, hstep, ih (fun r hr => hshape r (List.mem_cons_of_mem _ hr))]
    rfl

/-! ### A lister failure on the walked chain aborts the walk and is not cached -/

theorem listerVal_of_fail {L : Lister} {d : List String} (h : L d = .fail) :
    listerVal L d = none := by
  unfold listerVal
  rw [h]

theorem walk_fail {L : Lister} {d : List String} (hfail : L d = .fail) :
    ∀ (dd dir : List String), dir ++ dd = d →
      (∀ pre t, pre ++ t = dd → t ≠ [] → ∃ cs, listerVal L (dir ++ pre) = some cs ∧ cs ≠ []) →
      ∀ (x : String) (tail : List String) (st : CheckerState), Coh L st →
        (walkAncestors L dir (dd ++ x :: tail) st).1 = none ∧
        Coh L (walkAncestors L dir (dd ++ x :: tail) st).2 ∧
        countDir d (walkAncestors L dir (dd ++ x :: tail) st).2.callLog
          = countDir d st.callLog + 1 := by
  intro dd
  induction dd with
  | nil =>
    intro dir hdir _ x tail st hcoh
    rw [List.append_nil] at hdir
    subst hdir
    have hmiss : findCached dir st.cache = none := by
      cases hm : findCached dir st.cache with
      | none => rfl
      | some cs =>
        have := hcoh dir cs hm
        rw [listerVal_of_fail hfail] at this
        cases this
    have hc : childrenOf L dir st = (none, ⟨st.cache, st.callLog ++ [dir]⟩) :=
      childrenOf_miss_fail hmiss hfail
    rw [List.nil_append, walk_step_none hc]
    refine ⟨rfl, ?_, ?_⟩
    · intro e cs he
      exact hcoh e cs he
    · simp [countDir_append, countDir_single_eq]
  | cons s dd' ih =>
    intro dir hdir hchain x tail st hcoh
    obtain ⟨cs, hval, hcsne⟩ := hchain [] (s :: dd') rfl (by simp)
    rw [List.append_nil] at hval
    have hdirne : dir ≠ d := by
      intro hcontra
      subst hcontra
      have := congrArg List.length hdir
      simp at this
    have hstep : ∃ st₁, childrenOf L dir st = (some cs, st₁) ∧ Coh L st₁ ∧
        countDir d st₁.callLog = countDir d st.callLog := by
      cases hm : findCached dir st.cache with
      | some cs' =>
        have hv' := hcoh dir cs' hm
        rw [hval] at hv'
        injection hv' with hv'
        subst hv'
        exact ⟨st, childrenOf_hit hm, hcoh, rfl⟩
      | none =>
        refine ⟨_, childrenOf_miss_val hm hval, ?_, ?_⟩
        · have := coh_childrenOf hcoh dir
          rw [childrenOf_miss_val hm hval] at this
          exact this
        · simp [countDir_append, countDir_single_ne hdirne]
    obtain ⟨st₁, hc, hcoh₁, hcount₁⟩ := hstep
    have hshape : (s :: dd') ++ x :: tail = s :: (dd' ++ x :: tail) := rfl
    rw [hshape]
    cases hsplit : dd' ++ x :: tail with
    | nil =>
      exfalso
      rcases List.append_eq_nil.mp hsplit with ⟨_, h2⟩
      cases h2
    | cons y ys =>
      rw [walk_step_cons hc]
      have hemp : cs.isEmpty = false := by
        cases cs with
        | nil => exact absurd rfl hcsne
        | cons a as => rfl
      rw [hemp]
      simp only [Bool.false_eq_true, if_false]
      rw [← hsplit]
      have hdir' : (dir ++ [s]) ++ dd' = d := by
        rw [List.append_assoc]
        simpa using hdir
      have hchain' : ∀ pre t, pre ++ t = dd' → t ≠ [] →
          ∃ cs', listerVal L ((dir ++ [s]) ++ pre) = some cs' ∧ cs' ≠ [] := by
        intro pre t hpt htne
        have h := hchain (s :: pre) t (by rw [List.cons_append, hpt]) htne
        simpa [List.append_assoc] using h
      have hres := ih (dir ++ [s]) hdir' hchain' x tail st₁ hcoh₁
      rw [hcount₁] at hres
      exact hres

/-! ### Listers denoting the same child sets are interchangeable -/

theorem childrenOf_congr {L L' : Lister} (hval : ∀ e, listerVal L e = listerVal L' e)
    (d : List String) (st : CheckerState) : childrenOf L d st = childrenOf L' d st := by
  unfold childrenOf
  cases findCached d st.cache with
  | some cs => rfl
  | none =>
    have h := hval d
    unfold listerVal at h
    cases h1 : L d with
    | ok cs =>
      rw [h1] at h
      cases h2 : L' d with
      | ok cs' => rw [h2] at h; injection h with h; rw [h]
      | notFound => rw [h2] at h; injection h with h; rw [h]
      | fail => rw [h2] at h; cases h
    | notFound =>
      rw [h1] at h
      cases h2 : L' d with
      | ok cs' => rw [h2] at h; injection h with h; rw [← h]
      | notFound => rfl
      | fail => rw [h2] at h; cases h
    | fail =>
      rw [h1] at h
      cases h2 : L' d with
      | ok cs' => rw [h2] at h; cases h
      | notFound => rw [h2] at h; cases h
      | fail => rfl

theorem walk_congr {L L' : Lister} (hval : ∀ e, listerVal L e = listerVal L' e) :
    ∀ (p dir : List String) (st : CheckerState),
      walkAncestors L dir p st = walkAncestors L' dir p st := by
  intro p
  induction p with
  | nil => intro dir st; rfl
  | cons seg rest ih =>
    intro dir st
    have hc := childrenOf_congr hval dir st
    rcases h : childrenOf L' dir st with ⟨o, st₂⟩
    rw [h] at hc
    cases o with
    | none => rw [walk_step_none hc, walk_step_none h]
    | some cs =>
      cases rest with
      | nil => rw [walk_step_leaf hc, walk_step_leaf h]
      | cons y ys => rw [walk_step_cons hc, walk_step_cons h, ih (dir ++ [seg]) st₂]

theorem shouldInclude_congr {L L' : Lister} (hval : ∀ e, listerVal L e = listerVal L' e)
    (root p : List String) (b : Bool) (st : CheckerState) :
    shouldIncludePath L root p b st = shouldIncludePath L' root p b st := by
  cases hrepo : (resolve p root).escapesRepo with
  | true => rw [shouldInclude_escRepo hrepo, shouldInclude_escRepo hrepo]
  | false =>
    cases hflag : (resolve p root).escapesRoot && b with
    | true => rw [shouldInclude_flag hrepo hflag, shouldInclude_flag hrepo hflag]
    | false =>
      rw [shouldInclude_walk hrepo hflag, shouldInclude_walk hrepo hflag,
        walk_congr hval _ _ _]

/-! ### Auxiliary counting and prefix facts -/

theorem length_le_counts (a b : List String) :
    ∀ (l : List (List String)), (∀ e ∈ l, e = a ∨ e = b) →
      l.length ≤ countDir a l + countDir b l := by
  intro l
  induction l with
  | nil => intro _; simp [countDir]
  | cons x xs ih =>
    intro h
    have hx := h x (List.mem_cons_self x xs)
    have hxs := ih (fun e he => h e (List.mem_cons_of_mem x he))
    rw [List.length_cons, countDir_cons, countDir_cons]
    have h1 : 1 ≤ (if x = a then 1 else 0) + (if x = b then 1 else 0) := by
      rcases hx with hx | hx <;> simp [hx]
    omega

theorem resolve_escRepo_nil {p root : List String}
    (h : (resolve p root).escapesRepo = true) :
    (resolve p root).relativeToRepoRoot = [] := by
  unfold resolve at h ⊢
  cases hn : normalizeAux [] (root ++ p) with
  | none => rfl
  | some q => rw [hn] at h; exact Bool.noConfusion h

/-! ## Claim theorems -/

/-- C1, counterexample to the claim as stated: for the fixture tree of the
in-repository test, the candidate path `shared/bonk.ts` under project root
`web` resolves strictly inside the root and inside the repository, is NOT
tracked in the sense "every ancestor directory is listed as a child of its
parent and the leaf is a child of its parent" (`shared` is not listed
among the children of `web`), yet `shouldIncludePath` returns true — as
the test itself demands. -/
theorem C1_counterexample :
    (resolve ["shared", "bonk.ts"] ["web"]).escapesRepo = false ∧
    (resolve ["shared", "bonk.ts"] ["web"]).escapesRoot = false ∧
    (resolve ["shared", "bonk.ts"] ["web"]).relativeToRepoRoot ≠ ["web"] ∧
    trackedInTree tree1 [] (resolve ["shared", "bonk.ts"] ["web"]).relativeToRepoRoot = false ∧
    (shouldIncludePath (okLister tree1) ["web"] ["shared", "bonk.ts"] false initState).1
      = some true := by
  decide

/-- C1, amended: for every candidate path whose resolved path lies
strictly inside the project root and inside the repository, and for either
value of `restrictToProjectRoot`, `shouldIncludePath` returns true if and
only if every ancestor directory of the resolved path has a nonempty child
listing and the leaf name is a child of its parent directory
(`includedInTree`). -/
theorem C1_inside_root_included (f : List String → List String)
    (root path : List String) (b : Bool) (st : CheckerState)
    (hcoh : Coh (okLister f) st)
    (hrepo : (resolve path root).escapesRepo = false)
    (hroot : (resolve path root).escapesRoot = false)
    (hstrict : (resolve path root).relativeToRepoRoot ≠ root) :
    (shouldIncludePath (okLister f) root path b st).1 =
      some (includedInTree f [] (resolve path root).relativeToRepoRoot) := by
  have hflag : ((resolve path root).escapesRoot && b) = false := by rw [hroot]; rfl
  rw [shouldInclude_walk hrepo hflag]
  have hne : ∀ e, okLister f e ≠ .fail := fun e h => ListerResult.noConfusion h
  have heq : effChildren (okLister f) = f := funext fun d => rfl
  rw [walk_fst hne _ [] st hcoh, heq]

/-- C1, witness for the amended theorem at a concrete in-scope input. -/
theorem C1_witness :
    (shouldIncludePath (okLister tree1) ["web"] ["foo.ts"] true initState).1 =
      some (includedInTree tree1 [] ["web", "foo.ts"]) := by
  have h := C1_inside_root_included tree1 ["web"] ["foo.ts"] true initState
    (coh_init _) (by decide) (by decide) (by decide)
  have hrel : (resolve ["foo.ts"] ["web"]).relativeToRepoRoot = ["web", "foo.ts"] := by decide
  rw [hrel] at h
  exact h

/-- C2: for every candidate path that resolves outside the project root
but inside the repository: with `restrictToProjectRoot = false` the call
returns true when the resolved path is tracked in the tree, and with
`restrictToProjectRoot = true` it returns false with no directory lookups
(the state is returned unchanged), whatever the lister answers. -/
theorem C2_outside_root (f : List String → List String) (L : Lister)
    (root path : List String) (st : CheckerState) (hcoh : Coh (okLister f) st)
    (hrepo : (resolve path root).escapesRepo = false)
    (hroot : (resolve path root).escapesRoot = true) :
    (trackedInTree f [] (resolve path root).relativeToRepoRoot = true →
      (shouldIncludePath (okLister f) root path false st).1 = some true) ∧
    shouldIncludePath L root path true st = (some false, st) := by
  constructor
  · intro htr
    have hflag : ((resolve path root).escapesRoot && false) = false := by simp
    rw [shouldInclude_walk hrepo hflag]
    have hne : ∀ e, okLister f e ≠ .fail := fun e h => ListerResult.noConfusion h
    have heq : effChildren (okLister f) = f := funext fun d => rfl
    rw [walk_fst hne _ [] st hcoh, heq]
    rw [tracked_imp_included f _ [] htr]
  · exact shouldInclude_restricted hrepo hroot L st

/-- C2, witness: the fixture's `../shared/bar.ts` under root `web`. -/
theorem C2_witness :
    trackedInTree tree1 [] (resolve ["..", "shared", "bar.ts"] ["web"]).relativeToRepoRoot
      = true ∧
    (shouldIncludePath (okLister tree1) ["web"] ["..", "shared", "bar.ts"] false initState).1
      = some true ∧
    shouldIncludePath (okLister tree1) ["web"] ["..", "shared", "bar.ts"] true initState
      = (some false, initState) := by
  have h := C2_outside_root tree1 (okLister tree1) ["web"] ["..", "shared", "bar.ts"]
    initState (coh_init _) (by decide) (by decide)
  exact ⟨by decide, h.1 (by decide), h.2⟩

/-- C3, counterexample to the claim as stated: in the early-out fixture,
segment `node_modules` is not present in its parent directory's (the
repository root's) child set, yet the call does query one deeper
directory — `node_modules` itself — before returning false: the call log
records both the root and `node_modules`. -/
theorem C3_counterexample :
    "node_modules" ∉ earlyTree [] ∧
    (shouldIncludePath (okLister earlyTree) []
      ["node_modules", "0", "deeply", "nested", "lib", "file.ts"] false initState).1
      = some false ∧
    (shouldIncludePath (okLister earlyTree) []
      ["node_modules", "0", "deeply", "nested", "lib", "file.ts"] false initState).2.callLog
      = [[], ["node_modules"]] := by
  decide

/-- C3, amended: directory queries proceed strictly root-to-leaf and stop
at the first ancestor directory whose child listing is empty, without
querying anything deeper; hence for any batch of candidate paths all
lying strictly below one top-level directory whose listing is empty,
every call returns false, only the repository root and that directory are
ever fetched, and the total number of underlying lister calls is at most
two, independent of the batch size. -/
theorem C3_early_exit (L : Lister) (u : String) (reqs : List (List String × Bool))
    (hL : ∀ e, L e ≠ .fail) (hu : listerVal L [u] = some [])
    (hshape : ∀ r ∈ reqs, ∃ x xs, r.1 = u :: x :: xs ∧
      (∀ s ∈ r.1, s ≠ "." ∧ s ≠ ".." ∧ s ≠ "")) :
    (∀ res ∈ (processAll L [] reqs initState).1, res = some false) ∧
    (∀ e ∈ (processAll L [] reqs initState).2.callLog, e = [] ∨ e = ([u] : List String)) ∧
    (processAll L [] reqs initState).2.callLog.length ≤ 2 := by
  obtain ⟨hres, hlog⟩ := processAll_topEmpty hL hu reqs initState (coh_init L)
    (fun e he => absurd he (List.not_mem_nil e)) hshape
  refine ⟨hres, hlog, ?_⟩
  have hinv : InvM L (processAll L [] reqs initState).2 :=
    invM_processAll reqs initState (invM_init L)
  have hc1 := invM_count_le hinv (hL [])
  have hc2 := invM_count_le hinv (hL [u])
  have hlen := length_le_counts [] [u] (processAll L [] reqs initState).2.callLog hlog
  omega

/-- C3, witness for the amended theorem: two deep paths under
`node_modules` in the early-out fixture. -/
theorem C3_witness :
    (∀ res ∈ (processAll (okLister earlyTree) []
      [(["node_modules", "0", "deeply", "nested", "lib", "file.ts"], false),
       (["node_modules", "1", "deeply", "nested", "lib", "file.ts"], false)] initState).1,
      res = some false) ∧
    (∀ e ∈ (processAll (okLister earlyTree) []
      [(["node_modules", "0", "deeply", "nested", "lib", "file.ts"], false),
       (["node_modules", "1", "deeply", "nested", "lib", "file.ts"], false)] initState).2.callLog,
      e = [] ∨ e = (["node_modules"] : List String)) ∧
    (processAll (okLister earlyTree) []
      [(["node_modules", "0", "deeply", "nested", "lib", "file.ts"], false),
       (["node_modules", "1", "deeply", "nested", "lib", "file.ts"], false)]
      initState).2.callLog.length ≤ 2 := by
  apply C3_early_exit (okLister earlyTree) "node_modules" _
    (fun e h => ListerResult.noConfusion h) (by decide)
  intro r hr
  rcases List.mem_cons.mp hr with h | h
  · subst h
    exact ⟨"0", ["deeply", "nested", "lib", "file.ts"], rfl, by decide⟩
  rcases List.mem_cons.mp h with h | h
  · subst h
    exact ⟨"1", ["deeply", "nested", "lib", "file.ts"], rfl, by decide⟩
  · cases h

/-- C4: across any sequence of `shouldIncludePath` calls on one fresh
checker instance, a directory whose lister call succeeds is fetched from
the underlying lister at most once; later queries for it are served from
the cache. -/
theorem C4_memoized (L : Lister) (root : List String) (reqs : List (List String × Bool))
    (d : List String) (hd : L d ≠ .fail) :
    countDir d (processAll L root reqs initState).2.callLog ≤ 1 :=
  invM_count_le (invM_processAll reqs initState (invM_init L)) hd

/-- C4, witness: the cache-test fixture, four queries under the root. -/
theorem C4_witness :
    countDir [] (processAll (okLister cacheTree) []
      [(["0.ts"], false), (["0.js"], false), (["1.ts"], false), (["1.js"], false)]
      initState).2.callLog ≤ 1 :=
  C4_memoized (okLister cacheTree) []
    [(["0.ts"], false), (["0.js"], false), (["1.ts"], false), (["1.js"], false)] []
    (fun h => ListerResult.noConfusion h)

/-- C5: a candidate path whose normalization ascends past the repository
root is excluded for either value of `restrictToProjectRoot`, with no
directory lookups (the state is returned unchanged) and no failure (the
result is `some false`, not `none`). -/
theorem C5_escapes_repo (L : Lister) (root path : List String) (b : Bool)
    (st : CheckerState) (h : (resolve path root).escapesRepo = true) :
    shouldIncludePath L root path b st = (some false, st) :=
  shouldInclude_escRepo h L b st

/-- C5, witness: the fixture's `../../node_modules/@types/oops.ts`. -/
theorem C5_witness :
    shouldIncludePath (okLister tree1) ["web"]
      ["..", "..", "node_modules", "@types", "oops.ts"] false initState
      = (some false, initState) :=
  C5_escapes_repo (okLister tree1) ["web"]
    ["..", "..", "node_modules", "@types", "oops.ts"] false initState (by decide)

/-- C6: when the lister fails for a directory on the resolved path's
ancestor chain that the walk reaches (all shallower ancestors have
nonempty listings), `shouldIncludePath` fails (`none`) instead of
returning false, the failing directory is not stored in the cache, and a
second identical call invokes the lister for that directory again (two
logged calls in total). -/
theorem C6_failure_propagated (L : Lister) (root path d : List String) (b : Bool)
    (x : String) (tail : List String)
    (hfail : L d = .fail)
    (hchain : ∀ pre t, pre ++ t = d → t ≠ [] → ∃ cs, listerVal L pre = some cs ∧ cs ≠ [])
    (hrepo : (resolve path root).escapesRepo = false)
    (hflag : ((resolve path root).escapesRoot && b) = false)
    (hp : (resolve path root).relativeToRepoRoot = d ++ x :: tail) :
    (shouldIncludePath L root path b initState).1 = none ∧
    findCached d (shouldIncludePath L root path b initState).2.cache = none ∧
    countDir d (shouldIncludePath L root path b
      ((shouldIncludePath L root path b initState).2)).2.callLog = 2 := by
  have hchain0 : ∀ pre t, pre ++ t = d → t ≠ [] →
      ∃ cs, listerVal L (([] : List String) ++ pre) = some cs ∧ cs ≠ [] := by
    intro pre t h1 h2
    simpa using hchain pre t h1 h2
  obtain ⟨hres1, hcoh1, hcount1⟩ :=
    walk_fail hfail d [] (List.nil_append d) hchain0 x tail initState (coh_init L)
  obtain ⟨hres2, hcoh2, hcount2⟩ :=
    walk_fail hfail d [] (List.nil_append d) hchain0 x tail
      (walkAncestors L [] (d ++ x :: tail) initState).2 hcoh1
  have hsip : shouldIncludePath L root path b initState =
      walkAncestors L [] (d ++ x :: tail) initState := by
    rw [shouldInclude_walk hrepo hflag, hp]
  have hsip2 : shouldIncludePath L root path b
        (walkAncestors L [] (d ++ x :: tail) initState).2 =
      walkAncestors L [] (d ++ x :: tail)
        (walkAncestors L [] (d ++ x :: tail) initState).2 := by
    rw [shouldInclude_walk hrepo hflag, hp]
  refine ⟨?_, ?_, ?_⟩
  · rw [hsip]; exact hres1
  · rw [hsip]
    cases hm : findCached d (walkAncestors L [] (d ++ x :: tail) initState).2.cache with
    | none => rfl
    | some cs =>
      have := hcoh1 d cs hm
      rw [listerVal_of_fail hfail] at this
      cases this
  · rw [hsip, hsip2, hcount2, hcount1]
    rfl

/-- C6, witness: the root lists `a`, listing `a` itself fails. -/
theorem C6_witness :
    (shouldIncludePath failLister [] ["a", "b.ts"] false initState).1 = none ∧
    findCached ["a"] (shouldIncludePath failLister [] ["a", "b.ts"] false initState).2.cache
      = none ∧
    countDir ["a"] (shouldIncludePath failLister [] ["a", "b.ts"] false
      ((shouldIncludePath failLister [] ["a", "b.ts"] false initState).2)).2.callLog = 2 := by
  have hchain : ∀ pre t, pre ++ t = (["a"] : List String) → t ≠ [] →
      ∃ cs, listerVal failLister pre = some cs ∧ cs ≠ [] := by
    intro pre t h1 h2
    have hpre : pre = [] := by
      cases pre with
      | nil => rfl
      | cons hd tl =>
        rw [List.cons_append] at h1
        injection h1 with ha hb
        rcases List.append_eq_nil.mp hb with ⟨h3, h4⟩
        exact absurd h4 h2
    subst hpre
    exact ⟨["a"], by decide, by decide⟩
  exact C6_failure_propagated failLister [] ["a", "b.ts"] ["a"] false "b.ts" []
    (by decide) hchain (by decide) (by decide) (by decide)

/-- C7: a "directory does not exist" lister answer and an empty child set
are treated identically — two listers denoting the same child sets make
`shouldIncludePath` behave identically on every input and state — and
every candidate path resolving strictly below a directory whose listing
is empty (or missing) is excluded. -/
theorem C7_notFound_eq_empty (root : List String) :
    (∀ (L L' : Lister), (∀ e, listerVal L e = listerVal L' e) →
      ∀ (p : List String) (b : Bool) (st : CheckerState),
        shouldIncludePath L root p b st = shouldIncludePath L' root p b st) ∧
    (∀ (L : Lister) (dd rest p : List String) (b : Bool) (st : CheckerState),
      (∀ e, L e ≠ .fail) → Coh L st → listerVal L dd = some [] →
      (resolve p root).relativeToRepoRoot = dd ++ rest → rest ≠ [] →
      (shouldIncludePath L root p b st).1 = some false) := by
  constructor
  · intro L L' hval p b st
    exact shouldInclude_congr hval root p b st
  · intro L dd rest p b st hL hcoh hvd hp hrest
    cases hrepo : (resolve p root).escapesRepo with
    | true =>
      exfalso
      rw [resolve_escRepo_nil hrepo] at hp
      rcases List.append_eq_nil.mp hp.symm with ⟨_, h2⟩
      exact hrest h2
    | false =>
      cases hflag : (resolve p root).escapesRoot && b with
      | true => rw [shouldInclude_flag hrepo hflag]
      | false =>
        rw [shouldInclude_walk hrepo hflag, walk_fst hL _ [] st hcoh, hp]
        have heff : effChildren L dd = [] := by
          unfold effChildren
          rw [hvd]
          rfl
        rw [included_under_empty (effChildren L) dd rest [] hrest (by simpa using heff)]

/-- C7, witness: `nfLister` (not-found for `nm`) and `emLister` (empty set
for `nm`) agree on every call, and a path below `nm` is excluded. -/
theorem C7_witness :
    shouldIncludePath nfLister [] ["nm", "x.ts"] false initState =
      shouldIncludePath emLister [] ["nm", "x.ts"] false initState ∧
    (shouldIncludePath nfLister [] ["nm", "x.ts"] false initState).1 = some false := by
  have h := C7_notFound_eq_empty []
  constructor
  · apply h.1
    intro e
    by_cases he : e = ["nm"] <;> simp [nfLister, emLister, listerVal, he]
  · apply h.2 nfLister ["nm"] ["x.ts"] ["nm", "x.ts"] false initState
    · intro e
      by_cases he : e = ["nm"] <;> simp [nfLister, he]
    · exact coh_init _
    · decide
    · decide
    · decide

/-- C9: for a fresh checker with empty project root, a nonempty batch of
plain candidate paths that all start with the same segment `u`, where `u`
is absent from the (nonempty) repository-root listing and the directory
`u` itself has an empty listing, produces exactly two underlying lister
calls — the repository root first, then `u` itself — and every call
returns false; no deeper directory is ever queried. -/
theorem C9_two_calls (L : Lister) (cs₀ : List String) (u : String)
    (reqs : List (List String × Bool))
    (hv0 : listerVal L [] = some cs₀) (hne : cs₀ ≠ []) (hu : u ∉ cs₀)
    (hv1 : listerVal L [u] = some [])
    (hreqs : reqs ≠ [])
    (hshape : ∀ r ∈ reqs, ∃ x xs, r.1 = u :: x :: xs ∧
      (∀ s ∈ r.1, s ≠ "." ∧ s ≠ ".." ∧ s ≠ "")) :
    (processAll L [] reqs initState).2.callLog = [[], [u]] ∧
    ∀ res ∈ (processAll L [] reqs initState).1, res = some false := by
  cases reqs with
  | nil => exact absurd rfl hreqs
  | cons r rs =>
    obtain ⟨x, xs, hr, hplain⟩ := hshape r (List.mem_cons_self r rs)
    rcases r with ⟨p, b⟩
    simp only at hr
    subst hr
    have hstep : shouldIncludePath L [] (u :: x :: xs) b initState =
        (some false, ⟨[([u], []), ([], cs₀)], [[], [u]]⟩) := by
      rw [shouldInclude_plain hplain, walk_from_init hv0 hne hv1]
    have hrest := processAll_sat L hne rs
      (fun r hr => hshape r (List.mem_cons_of_mem _ hr))
    constructor
    · show (processAll L [] ((u :: x :: xs, b) :: rs) initState).2.callLog = _
      simp only [processAll, hstep, hrest]
    · intro res hres
      simp only [processAll, hstep, hrest] at hres
      rcases List.mem_cons.mp hres with h | h
      · rw [h]
      · obtain ⟨r', _, hr'⟩ := List.mem_map.mp h
        exact hr'.symm

/-- C9, witness: two deep paths under `node_modules` against the early-out
fixture, one of them with `restrictToProjectRoot = true`. -/
theorem C9_witness :
    (processAll (okLister earlyTree) []
      [(["node_modules", "0", "deeply", "nested", "lib", "file.ts"], false),
       (["node_modules", "1", "other", "f.ts"], true)] initState).2.callLog
      = [[], ["node_modules"]] ∧
    ∀ res ∈ (processAll (okLister earlyTree) []
      [(["node_modules", "0", "deeply", "nested", "lib", "file.ts"], false),
       (["node_modules", "1", "other", "f.ts"], true)] initState).1,
      res = some false := by
  apply C9_two_calls (okLister earlyTree) ["not_node_modules"] "node_modules" _
    (by decide) (by decide) (by decide) (by decide) (by decide)
  intro r hr
  rcases List.mem_cons.mp hr with h | h
  · subst h
    exact ⟨"0", ["deeply", "nested", "lib", "file.ts"], rfl, by decide⟩
  rcases List.mem_cons.mp h with h | h
  · subst h
    exact ⟨"1", ["other", "f.ts"], rfl, by decide⟩
  · cases h

/-- C10: a candidate path resolving outside the project root but inside
the repository that is untracked — an ancestor directory on the resolved
chain has an empty listing, or the leaf is absent from its parent
directory's listing — is excluded when `restrictToProjectRoot` is
false. -/
theorem C10_outside_untracked (f : List String → List String)
    (root path : List String) (st : CheckerState) (hcoh : Coh (okLister f) st)
    (hrepo : (resolve path root).escapesRepo = false)
    (hroot : (resolve path root).escapesRoot = true)
    (huntracked :
      (∃ dd rest, (resolve path root).relativeToRepoRoot = dd ++ rest ∧
        rest ≠ [] ∧ f dd = []) ∨
      (∃ pre leaf, (resolve path root).relativeToRepoRoot = pre ++ [leaf] ∧ leaf ∉ f pre)) :
    (shouldIncludePath (okLister f) root path false st).1 = some false := by
  have hflag : ((resolve path root).escapesRoot && false) = false := by simp
  rw [shouldInclude_walk hrepo hflag]
  have hne : ∀ e, okLister f e ≠ .fail := fun e h => ListerResult.noConfusion h
  have heq : effChildren (okLister f) = f := funext fun d => rfl
  rw [walk_fst hne _ [] st hcoh, heq]
  rcases huntracked with ⟨dd, rest, hp, hrest, hf⟩ | ⟨pre, leaf, hp, hleaf⟩
  · rw [hp, included_under_empty f dd rest [] hrest (by simpa using hf)]
  · rw [hp, included_leaf_absent f pre [] leaf (by simpa using hleaf)]

/-- C10, witness: the fixture's `../shared/bonk.ts` under root `web`,
whose leaf is absent from `shared`'s listing. -/
theorem C10_witness :
    (shouldIncludePath (okLister tree1) ["web"] ["..", "shared", "bonk.ts"] false initState).1
      = some false := by
  apply C10_outside_untracked tree1 ["web"] ["..", "shared", "bonk.ts"] initState
    (coh_init _) (by decide) (by decide)
  exact Or.inr ⟨["shared"], "bonk.ts", by decide, by decide⟩

end Visibility
